import Mathlib

/-!
Verification of the nested task-tree core of `src/note.py` (class `ModernTodoApp`).

The program stores its state in `self.tasks_tree`, a Python list of task dicts.
A task dict has keys `text` (string), `done` (boolean) and `subtasks` (list of
task dicts).  Because the tree is loaded from JSON with no validation, the
`done` and `subtasks` keys may be absent, and the code reads them defensively
(`task.get('done', False)`, `task.get('subtasks', [])`, lazy initialisation in
`add_task_to_path`, a `'subtasks' in task` membership test in
`display_task_recursive`).  We therefore model a task as a nested inductive
whose `done` and `subtasks` fields are `Option`s: `none` models an absent key.
The `text` key is always read unconditionally (`task['text']`), so it is a
plain `String`.

Python's in-place mutations (`task['done'] = ...`, `parent_task['subtasks']
.append(...)`, `parent_list.pop(i)`) are rendered purely: the mutated node is
located by exactly the navigation the source uses to resolve it, and the tree
is rebuilt along that spine with the node replaced.
-/

namespace NotesApp

/-- A task dict of `note.py`: keys `text`, `done`, `subtasks`.  `done = none`
and `subtasks = none` model dicts in which the corresponding key is absent
(possible because `load_tasks` deserialises JSON without validation). -/
inductive Task where
  | mk (text : String) (done : Option Bool) (subtasks : Option (List Task))

def Task.text : Task → String
  | .mk t _ _ => t

def Task.done : Task → Option Bool
  | .mk _ d _ => d

def Task.subtasks : Task → Option (List Task)
  | .mk _ _ s => s

/-- Python's `str.strip()` with no argument: remove leading and trailing
whitespace.  (Executable model over the character list; `note.py` calls it on
every text before testing emptiness and before storing.) -/
def py_strip (s : String) : String :=
  String.mk (((s.data.dropWhile Char.isWhitespace).reverse.dropWhile Char.isWhitespace).reverse)

/-- Python list-index normalisation: index `i` into a list of length `len`
denotes position `len + i` when `i` is negative. -/
def pyNorm (len : Nat) (i : Int) : Int :=
  if i < 0 then (len : Int) + i else i

/-- `l[i]` on a Python list, with `IndexError` as `none`: the normalised
position must lie in `[0, len)` (`List.get?` already rejects positions at or
above the length). -/
def pyGet {α : Type} (l : List α) (i : Int) : Option α :=
  if 0 ≤ pyNorm l.length i then l.get? (pyNorm l.length i).toNat else none

/-- Writing `l[i] = a` through a reference into a Python list (the callers
below only reach it with an index at which `pyGet` succeeds, so the
out-of-range branches are irrelevant no-ops). -/
def pyReplace {α : Type} (l : List α) (i : Int) (a : α) : List α :=
  if 0 ≤ pyNorm l.length i then l.set (pyNorm l.length i).toNat a else l

/-- `get_task_from_path` (note.py 204-218): walks `path`, descending into
`current[index].get('subtasks', [])` at every non-final index, returning
`current[index]` at the final one; an empty path, an `IndexError`, or any of
the defensively caught errors yield `None`. -/
def get_task_from_path (tree : List Task) : List Int → Option Task
  | [] => none
  | [i] => pyGet tree i
  | i :: rest =>
    match pyGet tree i with
    | none => none
    | some t => get_task_from_path ((t.subtasks).getD []) rest

/-- The loop body of `get_parent_list_from_path` (note.py 228-234): descend
through `current[index]['subtasks']`.  Unlike `get_task_from_path` this uses
a plain `['subtasks']` lookup, so an absent `subtasks` key raises `KeyError`,
caught as `None`. -/
def strict_nav : List Task → List Int → Option (List Task)
  | cur, [] => some cur
  | cur, i :: rest =>
    match pyGet cur i with
    | none => none
    | some t =>
      match t.subtasks with
      | none => none
      | some s => strict_nav s rest

/-- `get_parent_list_from_path` (note.py 220-234): the sibling list that
directly contains the node at `path` — the root list for a length-1 path,
otherwise the `subtasks` list reached by walking `path[:-1]`. -/
def get_parent_list_from_path (tree : List Task) (path : List Int) : Option (List Task) :=
  match path with
  | [] => none
  | [_] => some tree
  | _ => strict_nav tree path.dropLast

/-- Pure rendering of an in-place mutation of the node that
`get_task_from_path` resolves at `path`: the same navigation (same `pyGet`,
same `subtasks` access), rebuilding the spine with `f` applied at the target.
When the navigation fails no node is reached, so the tree is unchanged — all
mutating callers below in fact guard with `get_task_from_path` first.  In the
`i :: rest` case a `none` `subtasks` field means the source descends into a
fresh empty list `dict.get('subtasks', [])`, inside which every further index
fails, so again nothing is mutated. -/
def update_at_path (f : Task → Task) (tree : List Task) : List Int → List Task
  | [] => tree
  | [i] =>
    match pyGet tree i with
    | none => tree
    | some t => pyReplace tree i (f t)
  | i :: rest =>
    match pyGet tree i with
    | none => tree
    | some t =>
      match t.subtasks with
      | none => tree
      | some s => pyReplace tree i (Task.mk t.text t.done (some (update_at_path f s rest)))

/-- Pure rendering of an in-place mutation of the sibling list that
`get_parent_list_from_path`'s loop reaches: `strict_nav`'s navigation,
rebuilding the spine with `g` applied to the reached list. -/
def strict_set (g : List Task → List Task) : List Task → List Int → List Task
  | cur, [] => g cur
  | cur, i :: rest =>
    match pyGet cur i with
    | none => cur
    | some t =>
      match t.subtasks with
      | none => cur
      | some s => pyReplace cur i (Task.mk t.text t.done (some (strict_set g s rest)))

/-- Pure rendering of an in-place mutation (via `g`) of the list returned by
`get_parent_list_from_path tree path`. -/
def update_parent_list (g : List Task → List Task) (tree : List Task) (path : List Int) :
    List Task :=
  match path with
  | [] => tree
  | [_] => g tree
  | _ => strict_set g tree path.dropLast

/-- The new-task dict built at note.py 249-253:
`{"text": text.strip(), "done": False, "subtasks": []}`. -/
def new_task (text : String) : Task :=
  Task.mk (py_strip text) (some false) (some [])

/-- `add_task_to_path` (note.py 244-265): no-op when the text strips to
empty; append to the roots when `path` is `None`; otherwise resolve the
parent, lazily initialise its `subtasks` when absent, and append. -/
def add_task_to_path (tree : List Task) (text : String) (path : Option (List Int)) :
    List Task :=
  if py_strip text = "" then tree
  else
    match path with
    | none => tree ++ [new_task text]
    | some p =>
      match get_task_from_path tree p with
      | none => tree
      | some _ =>
        update_at_path
          (fun t => Task.mk t.text t.done (some ((t.subtasks).getD [] ++ [new_task text])))
          tree p

/-- The flip at note.py 271: `task['done'] = not task.get('done', False)`. -/
def toggle_done (t : Task) : Task :=
  Task.mk t.text (some (!((t.done).getD false))) t.subtasks

/-- `toggle_task` (note.py 267-273): resolve, and if found flip `done`. -/
def toggle_task (tree : List Task) (path : List Int) : List Task :=
  match get_task_from_path tree path with
  | none => tree
  | some _ => update_at_path toggle_done tree path

/-- `edit_task` (note.py 275-323), modelling its `save_edit` closure with the
dialog's final text as `newText`: return unchanged when the node is not
found; otherwise, when the stripped text is non-empty, replace `text`. -/
def edit_task (tree : List Task) (path : List Int) (newText : String) : List Task :=
  match get_task_from_path tree path with
  | none => tree
  | some _ =>
    if py_strip newText = "" then tree
    else update_at_path (fun t => Task.mk (py_strip newText) t.done t.subtasks) tree path

/-- `delete_task` (note.py 325-340).  `result` is the user's answer to the
`messagebox.askyesno` confirmation (a view concern).  The source resolves the
task (returning early when not found), then on confirmation takes the parent
list, the final path index `path[-1]`, and pops that index only when
`0 <= task_index < len(parent_list)`. -/
def delete_task (tree : List Task) (path : List Int) (result : Bool) : List Task :=
  match get_task_from_path tree path with
  | none => tree
  | some _ =>
    if result then
      match get_parent_list_from_path tree path, path.getLast? with
      | some pl, some idx =>
        if 0 ≤ idx ∧ idx < (pl.length : Int) then
          update_parent_list (fun l => List.eraseIdx l idx.toNat) tree path
        else tree
      | _, _ => tree
    else tree

/-- The outcome of one Python exception-or-value control path. -/
inductive PyExc where
  | permissionError

/-- What `open` + `os.path.getsize` + `json.load` can observe in the backing
file once it exists and is readable. -/
inductive FileData where
  | emptyFile
  | malformed
  | wellFormed (tasks : List Task)

/-- The backing store `tasks_nested.json` as `load_tasks` can find it.
`unreadable` is a file for which `os.path.exists` is true but `open` (or the
read) raises an `OSError` other than `FileNotFoundError` — e.g.
`PermissionError`. -/
inductive FsFile where
  | absent
  | unreadable
  | readable (data : FileData)

/-- `load_tasks` (note.py 73-85).  The `try` at line 76 catches only
`json.JSONDecodeError` and `FileNotFoundError`, so a `PermissionError` from
`open` on an existing file propagates to the caller; an absent file, an empty
file, and malformed JSON all yield `[]`.  A well-formed task-array file is
returned verbatim, unvalidated. -/
def load_tasks : FsFile → Except PyExc (List Task)
  | .absent => .ok []
  | .unreadable => .error .permissionError
  | .readable .emptyFile => .ok []
  | .readable .malformed => .ok []
  | .readable (.wellFormed ts) => .ok ts

mutual

/-- `display_task_recursive` (note.py 465-474) together with the widget
creation it triggers: the pre-order sequence of `(path, depth, task)` entries
it emits.  A task is emitted first, then — when `'subtasks' in task and
task['subtasks']` (key present and list non-empty) — each subtask in order at
`path + [i]` and `depth + 1`. -/
def display_task_recursive : Task → List Int → Nat → List (List Int × Nat × Task)
  | Task.mk tx dn st, path, depth =>
    (path, depth, Task.mk tx dn st) ::
      (match st with
       | none => []
       | some s => if s.isEmpty then [] else display_children s path depth 0)

/-- Models the `for i, subtask in enumerate(task['subtasks'])` loop of
`display_task_recursive`, with `k` the enumeration counter at the head of the
remaining list. -/
def display_children : List Task → List Int → Nat → Nat → List (List Int × Nat × Task)
  | [], _, _, _ => []
  | t :: ts, path, depth, k =>
    display_task_recursive t (path ++ [(k : Int)]) (depth + 1) ++
      display_children ts path depth (k + 1)

end

/-- The `for i, task in enumerate(self.tasks_tree): self.display_task_recursive
(task, [i], 0)` loop of `refresh_display` (note.py 462-463); `k` is the
enumeration counter at the head of the remaining list.  (When the tree is
empty the source shows an empty-state label and emits no task entries, which
is the `[]` case.) -/
def refresh_display_entries : List Task → Nat → List (List Int × Nat × Task)
  | [], _ => []
  | t :: ts, k => display_task_recursive t [(k : Int)] 0 ++ refresh_display_entries ts (k + 1)

/-- The full pre-order rendering of the tree, as `refresh_display` performs
it starting the root enumeration at index 0. -/
def render (tree : List Task) : List (List Int × Nat × Task) :=
  refresh_display_entries tree 0

/-! The `subtasks`-present invariant of the spec's data model (section 3):
every reachable task has a `subtasks` sequence, possibly empty, never
absent. -/

mutual

/-- A task satisfies the spec's invariant: its `subtasks` key is present and
every task below it satisfies the invariant too. -/
def task_wf : Task → Bool
  | Task.mk _ _ none => false
  | Task.mk _ _ (some s) => tree_wf s

/-- Every task in the list satisfies `task_wf`. -/
def tree_wf : List Task → Bool
  | [] => true
  | t :: ts => task_wf t && tree_wf ts

end

/-- Induction statement for a single task: every entry its rendering emits is
either the task itself at the entry path `p0`, or an entry of some strictly
deeper task, resolvable inside the task's `subtasks` by the suffix of its
path after `p0`. -/
def ResolvesBelow (t : Task) : Prop :=
  ∀ (p0 : List Int) (d0 : Nat) (p : List Int) (d : Nat) (u : Task),
    (p, d, u) ∈ display_task_recursive t p0 d0 →
    (p = p0 ∧ u = t) ∨
    ∃ rest, rest ≠ [] ∧ p = p0 ++ rest ∧
      get_task_from_path ((t.subtasks).getD []) rest = some u

/-- A spec Path (a sequence of non-negative indices, spec section 3) cast
into the signed indices the operations take. -/
def natPath : List Nat → List Int
  | [] => []
  | n :: rest => (n : Int) :: natPath rest

/-- Replace the sibling list addressed by the non-negative parent path `pp`
(`pp = []` addresses the root list) by `newl`, leaving every node outside
that list untouched.  This is the specification-level description of what a
sibling-list mutation may change. -/
def set_siblings : List Task → List Nat → List Task → List Task
  | _, [], newl => newl
  | tree, j :: rest, newl =>
    match tree.get? j with
    | none => tree
    | some t =>
      match t.subtasks with
      | none => tree
      | some s => tree.set j (Task.mk t.text t.done (some (set_siblings s rest newl)))

/-! Helper lemmas about the Python-list primitives. -/

theorem pyGet_nil {α : Type} (i : Int) : pyGet ([] : List α) i = none := by
  unfold pyGet
  split
  · simp
  · rfl

theorem pyGet_natCast {α : Type} (l : List α) (n : Nat) : pyGet l (n : Int) = l.get? n := by
  unfold pyGet pyNorm
  have h : ¬ ((n : Int) < 0) := by omega
  simp [h]

theorem pyGet_neg_one {α : Type} (l : List α) : pyGet l (-1) = l.getLast? := by
  unfold pyGet pyNorm
  cases l with
  | nil => simp
  | cons a t =>
    have h1 : (-1 : Int) < 0 := by omega
    rw [if_pos h1]
    have h2 : (0 : Int) ≤ ((a :: t).length : Int) + (-1) := by
      simp only [List.length_cons]
      omega
    rw [if_pos h2]
    have h3 : ((((a :: t).length : Nat) : Int) + (-1)).toNat = (a :: t).length - 1 := by
      simp only [List.length_cons]
      omega
    rw [h3, ← List.getLast?_eq_get?]

theorem length_pyReplace {α : Type} (l : List α) (i : Int) (a : α) :
    (pyReplace l i a).length = l.length := by
  unfold pyReplace
  split <;> simp

theorem pyGet_pyReplace_same {α : Type} {l : List α} {i : Int} {b : α}
    (h : pyGet l i = some b) (a : α) : pyGet (pyReplace l i a) i = some a := by
  unfold pyGet pyReplace at *
  by_cases h0 : 0 ≤ pyNorm l.length i
  · rw [if_pos h0] at h
    rw [if_pos h0]
    simp only [List.length_set]
    rw [if_pos h0, List.get?_set_eq, h]
    rfl
  · rw [if_neg h0] at h
    exact absurd h (by simp)

/-! Unfolding lemmas for paths of length at least two. -/

theorem get_task_from_path_cons (tree : List Task) (i : Int) (rest : List Int)
    (h : rest ≠ []) :
    get_task_from_path tree (i :: rest) =
      match pyGet tree i with
      | none => none
      | some t => get_task_from_path ((t.subtasks).getD []) rest := by
  cases rest with
  | nil => exact absurd rfl h
  | cons j r => rfl

theorem update_at_path_cons (f : Task → Task) (tree : List Task) (i : Int)
    (rest : List Int) (h : rest ≠ []) :
    update_at_path f tree (i :: rest) =
      match pyGet tree i with
      | none => tree
      | some t =>
        match t.subtasks with
        | none => tree
        | some s =>
          pyReplace tree i (Task.mk t.text t.done (some (update_at_path f s rest))) := by
  cases rest with
  | nil => exact absurd rfl h
  | cons j r => rfl

theorem get_task_from_path_nil_tree (p : List Int) :
    get_task_from_path [] p = none := by
  cases p with
  | nil => rfl
  | cons i rest =>
    cases rest with
    | nil => simp [get_task_from_path, pyGet_nil]
    | cons j r =>
      rw [get_task_from_path_cons _ _ _ (by simp), pyGet_nil]

/-- Reading back through the very navigation that was used to mutate: if
`path` resolves to `t` in `tree`, then in the updated tree it resolves to
`f t`.  This is the pure content of Python's aliasing (the node returned by
`get_task_from_path` is the node mutated in place). -/
theorem get_task_update_at_path (f : Task → Task) :
    ∀ (p : List Int) (tree : List Task) (t : Task),
      get_task_from_path tree p = some t →
      get_task_from_path (update_at_path f tree p) p = some (f t) := by
  intro p
  induction p with
  | nil => intro tree t h; simp [get_task_from_path] at h
  | cons i rest ih =>
    intro tree t h
    cases rest with
    | nil =>
      simp only [get_task_from_path] at h ⊢
      simp only [update_at_path]
      rw [h]
      exact pyGet_pyReplace_same h (f t)
    | cons j r =>
      rw [get_task_from_path_cons _ _ _ (by simp)] at h
      rw [update_at_path_cons _ _ _ _ (by simp)]
      cases hg : pyGet tree i with
      | none => rw [hg] at h; simp at h
      | some t0 =>
        rw [hg] at h
        simp only at h
        cases hs : t0.subtasks with
        | none =>
          rw [hs] at h
          simp only [Option.getD_none] at h
          rw [get_task_from_path_nil_tree] at h
          exact absurd h (by simp)
        | some s =>
          rw [hs] at h
          simp only [Option.getD_some] at h
          simp only [hs]
          rw [get_task_from_path_cons _ _ _ (by simp)]
          rw [pyGet_pyReplace_same hg _]
          simp only [Task.subtasks, Option.getD_some]
          exact ih _ _ h

/-- Shared helper: every mutating operation is a silent no-op on a path that
`get_task_from_path` does not resolve. -/
theorem mutators_noop_of_not_found (tree : List Task) (p : List Int) (s : String)
    (c : Bool) (h : get_task_from_path tree p = none) :
    toggle_task tree p = tree ∧
    edit_task tree p s = tree ∧
    delete_task tree p c = tree ∧
    add_task_to_path tree s (some p) = tree := by
  refine ⟨?_, ?_, ?_, ?_⟩
  · simp only [toggle_task, h]
  · simp only [edit_task, h]
  · simp only [delete_task, h]
  · unfold add_task_to_path
    by_cases hs : py_strip s = ""
    · rw [if_pos hs]
    · rw [if_neg hs]
      simp only [h]

/-- Claim C1: starting from the empty tree, `addTask("Buy milk", None)` yields
the singleton tree; `addTask("2%", [0])` puts the subtask under the root;
`toggleTask([0, 0])` marks that subtask done; `deleteTask([0])` (confirmed)
empties the tree, removing the root together with its subtask. -/
theorem c1_scenario :
    add_task_to_path [] "Buy milk" none = [Task.mk "Buy milk" (some false) (some [])] ∧
    add_task_to_path [Task.mk "Buy milk" (some false) (some [])] "2%" (some [0]) =
      [Task.mk "Buy milk" (some false) (some [Task.mk "2%" (some false) (some [])])] ∧
    toggle_task [Task.mk "Buy milk" (some false) (some [Task.mk "2%" (some false) (some [])])]
        [0, 0] =
      [Task.mk "Buy milk" (some false) (some [Task.mk "2%" (some true) (some [])])] ∧
    delete_task [Task.mk "Buy milk" (some false) (some [Task.mk "2%" (some true) (some [])])]
        [0] true = [] :=
  ⟨rfl, rfl, rfl, rfl⟩

/-- Claim C3, amended: `load_tasks` returns the empty tree when the file is
absent, empty, or malformed, and returns a well-formed file's tasks verbatim;
it does NOT shield the caller from every unreadable file (see the
counterexample: only `json.JSONDecodeError` and `FileNotFoundError` are
caught). -/
theorem c3_load_amended (v : List Task) :
    load_tasks .absent = .ok [] ∧
    load_tasks (.readable .emptyFile) = .ok [] ∧
    load_tasks (.readable .malformed) = .ok [] ∧
    load_tasks (.readable (.wellFormed v)) = .ok v :=
  ⟨rfl, rfl, rfl, rfl⟩

/-- Counterexample to claim C3 as stated: on an existing but unreadable file
(e.g. a `PermissionError` from `open`), `load_tasks` raises to the caller
instead of returning an empty tree, because the `try` at note.py 76 catches
only `json.JSONDecodeError` and `FileNotFoundError`. -/
theorem c3_load_counterexample :
    load_tasks .unreadable = .error .permissionError :=
  rfl

/-- Claim C6: text that strips to the empty string is rejected: `addTask`
(both at the roots and under any parent path) and `editTask` leave the tree
unchanged. -/
theorem c6_blank_text_noop (tree : List Task) (p : List Int) (s : String)
    (h : py_strip s = "") :
    add_task_to_path tree s none = tree ∧
    add_task_to_path tree s (some p) = tree ∧
    edit_task tree p s = tree := by
  refine ⟨?_, ?_, ?_⟩
  · simp only [add_task_to_path, if_pos h]
  · simp only [add_task_to_path, if_pos h]
  · cases hg : get_task_from_path tree p with
    | none => simp only [edit_task, hg]
    | some t => simp only [edit_task, hg, if_pos h]

/-- Witness for C6 at `s = "  "`, the whitespace-only text of the spec's
example, on a concrete one-task tree. -/
theorem c6_blank_text_noop_witness :
    add_task_to_path [Task.mk "a" (some false) (some [])] "  " none =
        [Task.mk "a" (some false) (some [])] ∧
    add_task_to_path [Task.mk "a" (some false) (some [])] "  " (some [0]) =
        [Task.mk "a" (some false) (some [])] ∧
    edit_task [Task.mk "a" (some false) (some [])] [0] "  " =
        [Task.mk "a" (some false) (some [])] :=
  c6_blank_text_noop [Task.mk "a" (some false) (some [])] [0] "  " (by decide)

/-- Claim C7: a single `toggleTask(p)` flips the resolved node's effective
`done` flag (the source reads it as `task.get('done', False)`), and applying
`toggleTask(p)` twice restores it; `text` and `subtasks` are untouched. -/
theorem c7_toggle_involution (tree : List Task) (p : List Int) (t : Task)
    (h : get_task_from_path tree p = some t) :
    get_task_from_path (toggle_task tree p) p =
      some (Task.mk t.text (some (!((t.done).getD false))) t.subtasks) ∧
    get_task_from_path (toggle_task (toggle_task tree p) p) p =
      some (Task.mk t.text (some ((t.done).getD false)) t.subtasks) := by
  have e1 : toggle_task tree p = update_at_path toggle_done tree p := by
    simp only [toggle_task, h]
  have h1 : get_task_from_path (toggle_task tree p) p = some (toggle_done t) := by
    rw [e1]
    exact get_task_update_at_path toggle_done p tree t h
  have e2 : toggle_task (toggle_task tree p) p =
      update_at_path toggle_done (toggle_task tree p) p := by
    generalize hT : toggle_task tree p = T at h1
    simp only [toggle_task, h1]
  have h2 : get_task_from_path (toggle_task (toggle_task tree p) p) p =
      some (toggle_done (toggle_done t)) := by
    rw [e2]
    exact get_task_update_at_path toggle_done p _ _ h1
  refine ⟨h1, ?_⟩
  rw [h2]
  simp [toggle_done, Task.text, Task.done, Task.subtasks, Bool.not_not]

/-- Witness for C7 on a concrete two-level tree at path `[0, 0]`. -/
theorem c7_toggle_involution_witness :
    get_task_from_path
        (toggle_task [Task.mk "a" (some false) (some [Task.mk "b" (some true) (some [])])] [0, 0])
        [0, 0] =
      some (Task.mk "b" (some false) (some [])) ∧
    get_task_from_path
        (toggle_task
          (toggle_task [Task.mk "a" (some false) (some [Task.mk "b" (some true) (some [])])]
            [0, 0])
          [0, 0])
        [0, 0] =
      some (Task.mk "b" (some true) (some [])) :=
  c7_toggle_involution [Task.mk "a" (some false) (some [Task.mk "b" (some true) (some [])])]
    [0, 0] (Task.mk "b" (some true) (some [])) rfl

/-- Claim C8: on a path that does not resolve, every mutating operation —
`toggleTask`, `editTask`, `deleteTask` (whatever the confirmation answer),
and `addTask` with that path as parent — leaves the tree unchanged. -/
theorem c8_stale_path_noop (tree : List Task) (p : List Int) (s : String) (c : Bool)
    (h : get_task_from_path tree p = none) :
    toggle_task tree p = tree ∧
    edit_task tree p s = tree ∧
    delete_task tree p c = tree ∧
    add_task_to_path tree s (some p) = tree :=
  mutators_noop_of_not_found tree p s c h

/-- Witness for C8, the spec's own scenario: on a tree with one root task,
`resolve([5])` is NotFound and `toggleTask([5])` leaves the tree unchanged. -/
theorem c8_stale_path_noop_witness :
    get_task_from_path [Task.mk "a" (some false) (some [])] [5] = none ∧
    toggle_task [Task.mk "a" (some false) (some [])] [5] =
      [Task.mk "a" (some false) (some [])] :=
  ⟨rfl, (c8_stale_path_noop [Task.mk "a" (some false) (some [])] [5] "x" true rfl).1⟩

/-- Claim C10: the empty path resolves to nothing, and all four mutating
operations on it leave the tree unchanged. -/
theorem c10_empty_path_noop (tree : List Task) (s : String) (c : Bool) :
    get_task_from_path tree [] = none ∧
    toggle_task tree [] = tree ∧
    edit_task tree [] s = tree ∧
    delete_task tree [] c = tree ∧
    add_task_to_path tree s (some []) = tree := by
  have h : get_task_from_path tree [] = none := rfl
  have hm := mutators_noop_of_not_found tree [] s c h
  exact ⟨h, hm.1, hm.2.1, hm.2.2.1, hm.2.2.2⟩

/-- Claim C9: `get_task_from_path` accepts Python's negative indices — on any
tree, path `[-1]` resolves to the last root task (`none` only when the tree
is empty), so `toggleTask([-1])` toggles the last root task — whereas
`delete_task` explicitly requires `0 <= path[-1] < len(parent_list)` and is a
no-op whenever the final index is negative. -/
theorem c9_negative_index_asymmetry (tree : List Task) (t : Task) (p : List Int)
    (i : Int) (c : Bool) (hlast : tree.getLast? = some t) (hneg : i < 0) :
    get_task_from_path tree [-1] = some t ∧
    get_task_from_path (toggle_task tree [-1]) [-1] =
      some (Task.mk t.text (some (!((t.done).getD false))) t.subtasks) ∧
    delete_task tree (p ++ [i]) c = tree := by
  have h1 : get_task_from_path tree [-1] = some t := by
    simp only [get_task_from_path, pyGet_neg_one]
    exact hlast
  refine ⟨h1, ?_, ?_⟩
  · have e1 : toggle_task tree [-1] = update_at_path toggle_done tree [-1] := by
      simp only [toggle_task, h1]
    rw [e1]
    exact get_task_update_at_path toggle_done [-1] tree t h1
  · cases hg : get_task_from_path tree (p ++ [i]) with
    | none => simp only [delete_task, hg]
    | some u =>
      simp only [delete_task, hg]
      cases c with
      | false => simp
      | true =>
        simp only [if_true]
        cases hpl : get_parent_list_from_path tree (p ++ [i]) with
        | none => simp [hpl]
        | some pl =>
          have hl : (p ++ [i]).getLast? = some i := List.getLast?_concat p
          have hguard : ¬ (0 ≤ i ∧ i < (pl.length : Int)) := by omega
          simp [hpl, hl, hguard]

/-- Witness for C9 on a concrete two-task tree with `p = []`, `i = -2`. -/
theorem c9_negative_index_asymmetry_witness :
    get_task_from_path [Task.mk "a" (some false) (some []), Task.mk "b" none (some [])] [-1] =
      some (Task.mk "b" none (some [])) ∧
    get_task_from_path
        (toggle_task [Task.mk "a" (some false) (some []), Task.mk "b" none (some [])] [-1])
        [-1] =
      some (Task.mk "b" (some true) (some [])) ∧
    delete_task [Task.mk "a" (some false) (some []), Task.mk "b" none (some [])] [-2] true =
      [Task.mk "a" (some false) (some []), Task.mk "b" none (some [])] :=
  c9_negative_index_asymmetry
    [Task.mk "a" (some false) (some []), Task.mk "b" none (some [])]
    (Task.mk "b" none (some [])) [] (-2) true rfl (by decide)

theorem tree_wf_iff (l : List Task) :
    tree_wf l = true ↔ ∀ t ∈ l, task_wf t = true := by
  induction l with
  | nil => simp [tree_wf]
  | cons t ts ih =>
    simp [tree_wf, Bool.and_eq_true, ih]

theorem task_wf_subtasks {t : Task} (h : task_wf t = true) :
    ∃ s, t.subtasks = some s ∧ tree_wf s = true := by
  cases t with
  | mk x d st =>
    cases st with
    | none => simp [task_wf] at h
    | some s => exact ⟨s, rfl, h⟩

theorem mem_of_pyGet {α : Type} {l : List α} {i : Int} {a : α}
    (h : pyGet l i = some a) : a ∈ l := by
  unfold pyGet at h
  split at h
  · exact List.get?_mem h
  · exact absurd h (by simp)

theorem tree_wf_pyReplace {l : List Task} {a : Task} (hl : tree_wf l = true)
    (ha : task_wf a = true) (i : Int) : tree_wf (pyReplace l i a) = true := by
  unfold pyReplace
  split
  · rw [tree_wf_iff]
    intro u hu
    rcases List.mem_or_eq_of_mem_set hu with hm | he
    · exact (tree_wf_iff l).mp hl u hm
    · rw [he]; exact ha
  · exact hl

theorem tree_wf_eraseIdx {l : List Task} (hl : tree_wf l = true) (n : Nat) :
    tree_wf (l.eraseIdx n) = true := by
  rw [tree_wf_iff]
  intro u hu
  exact (tree_wf_iff l).mp hl u ((List.eraseIdx_sublist l n).mem hu)

theorem tree_wf_append {a b : List Task} (ha : tree_wf a = true)
    (hb : tree_wf b = true) : tree_wf (a ++ b) = true := by
  rw [tree_wf_iff]
  intro u hu
  rcases List.mem_append.mp hu with h | h
  · exact (tree_wf_iff a).mp ha u h
  · exact (tree_wf_iff b).mp hb u h

/-- `update_at_path` preserves the invariant when `f` maps invariant tasks to
invariant tasks. -/
theorem tree_wf_update_at_path (f : Task → Task)
    (hf : ∀ u, task_wf u = true → task_wf (f u) = true) :
    ∀ (p : List Int) (tree : List Task), tree_wf tree = true →
      tree_wf (update_at_path f tree p) = true := by
  intro p
  induction p with
  | nil => intro tree h; simpa [update_at_path] using h
  | cons i rest ih =>
    intro tree h
    cases rest with
    | nil =>
      simp only [update_at_path]
      cases hg : pyGet tree i with
      | none => exact h
      | some t =>
        simp only
        have ht : task_wf t = true := (tree_wf_iff tree).mp h t (mem_of_pyGet hg)
        exact tree_wf_pyReplace h (hf t ht) i
    | cons j r =>
      rw [update_at_path_cons _ _ _ _ (by simp)]
      cases hg : pyGet tree i with
      | none => exact h
      | some t =>
        simp only
        have ht : task_wf t = true := (tree_wf_iff tree).mp h t (mem_of_pyGet hg)
        cases hs : t.subtasks with
        | none => exact h
        | some s =>
          simp only
          rcases task_wf_subtasks ht with ⟨s2, hs2, hwf2⟩
          rw [hs] at hs2
          cases hs2
          have hnew : task_wf (Task.mk t.text t.done (some (update_at_path f s (j :: r)))) =
              true := by
            simp only [task_wf]
            exact ih s hwf2
          exact tree_wf_pyReplace h hnew i

/-- `strict_set` preserves the invariant when `g` maps invariant lists to
invariant lists. -/
theorem tree_wf_strict_set (g : List Task → List Task)
    (hg : ∀ l, tree_wf l = true → tree_wf (g l) = true) :
    ∀ (p : List Int) (cur : List Task), tree_wf cur = true →
      tree_wf (strict_set g cur p) = true := by
  intro p
  induction p with
  | nil => intro cur h; simpa [strict_set] using hg cur h
  | cons i rest ih =>
    intro cur h
    simp only [strict_set]
    cases hget : pyGet cur i with
    | none => exact h
    | some t =>
      simp only
      have ht : task_wf t = true := (tree_wf_iff cur).mp h t (mem_of_pyGet hget)
      cases hs : t.subtasks with
      | none => exact h
      | some s =>
        simp only
        rcases task_wf_subtasks ht with ⟨s2, hs2, hwf2⟩
        rw [hs] at hs2
        cases hs2
        have hnew : task_wf (Task.mk t.text t.done (some (strict_set g s rest))) = true := by
          simp only [task_wf]
          exact ih s hwf2
        exact tree_wf_pyReplace h hnew i

theorem tree_wf_update_parent_list (g : List Task → List Task)
    (hg : ∀ l, tree_wf l = true → tree_wf (g l) = true)
    (tree : List Task) (path : List Int) (h : tree_wf tree = true) :
    tree_wf (update_parent_list g tree path) = true := by
  unfold update_parent_list
  split
  · exact h
  · exact hg tree h
  · exact tree_wf_strict_set g hg _ tree h

/-- Claim C4, amended: the `subtasks`-present invariant is preserved by every
mutating operation (`addTask` in both forms, `toggleTask`, `editTask`,
`deleteTask`), and every task `addTask` constructs satisfies it; but it does
NOT hold of every tree `load_tasks` returns, because loading performs no
validation (see the counterexample). -/
theorem c4_invariant_preserved (tree : List Task) (p : List Int)
    (po : Option (List Int)) (s : String) (c : Bool) (h : tree_wf tree = true) :
    task_wf (new_task s) = true ∧
    tree_wf (add_task_to_path tree s po) = true ∧
    tree_wf (toggle_task tree p) = true ∧
    tree_wf (edit_task tree p s) = true ∧
    tree_wf (delete_task tree p c) = true := by
  refine ⟨rfl, ?_, ?_, ?_, ?_⟩
  · unfold add_task_to_path
    split
    · exact h
    · cases po with
      | none =>
        simp only
        exact tree_wf_append h (by simp [tree_wf]; rfl)
      | some q =>
        simp only
        cases hget : get_task_from_path tree q with
        | none => exact h
        | some t =>
          simp only
          refine tree_wf_update_at_path _ ?_ q tree h
          intro u hu
          rcases task_wf_subtasks hu with ⟨su, hsu, hwfu⟩
          rw [hsu]
          simp only [task_wf, Option.getD_some]
          exact tree_wf_append hwfu (by simp [tree_wf]; rfl)
  · unfold toggle_task
    cases hget : get_task_from_path tree p with
    | none => exact h
    | some t =>
      simp only
      refine tree_wf_update_at_path _ ?_ p tree h
      intro u hu
      rcases task_wf_subtasks hu with ⟨su, hsu, hwfu⟩
      cases u with
      | mk x d st =>
        simp only [Task.subtasks] at hsu
        cases hsu
        simpa [toggle_done, Task.text, Task.done, Task.subtasks, task_wf] using hwfu
  · unfold edit_task
    cases hget : get_task_from_path tree p with
    | none => exact h
    | some t =>
      simp only
      split
      · exact h
      · refine tree_wf_update_at_path _ ?_ p tree h
        intro u hu
        rcases task_wf_subtasks hu with ⟨su, hsu, hwfu⟩
        cases u with
        | mk x d st =>
          simp only [Task.subtasks] at hsu
          cases hsu
          simpa [task_wf] using hwfu
  · unfold delete_task
    cases hget : get_task_from_path tree p with
    | none => exact h
    | some t =>
      simp only
      cases c with
      | false => exact h
      | true =>
        simp only [if_true]
        cases hpl : get_parent_list_from_path tree p with
        | none => simp only [hpl]; exact h
        | some pl =>
          cases hli : p.getLast? with
          | none => simp only [hpl, hli]; exact h
          | some idx =>
            simp only [hpl, hli]
            split
            · exact tree_wf_update_parent_list _
                (fun l hl => tree_wf_eraseIdx hl idx.toNat) tree p h
            · exact h

/-- Witness for (amended) C4 on a concrete invariant-satisfying tree. -/
theorem c4_invariant_preserved_witness :
    task_wf (new_task "b") = true ∧
    tree_wf (add_task_to_path [Task.mk "a" (some false) (some [])] "b" (some [0])) = true ∧
    tree_wf (toggle_task [Task.mk "a" (some false) (some [])] [0]) = true ∧
    tree_wf (edit_task [Task.mk "a" (some false) (some [])] [0] "b") = true ∧
    tree_wf (delete_task [Task.mk "a" (some false) (some [])] [0] true) = true :=
  c4_invariant_preserved [Task.mk "a" (some false) (some [])] [0] (some [0]) "b" true rfl

/-- Counterexample to claim C4 as stated: `load_tasks` validates nothing, so
a well-formed JSON file whose task lacks the `subtasks` key loads verbatim
into a tree violating the invariant (which the code tolerates by reading
`task.get('subtasks', [])` and lazily initialising on insert). -/
theorem c4_load_counterexample :
    load_tasks (.readable (.wellFormed [Task.mk "x" (some false) none])) =
      .ok [Task.mk "x" (some false) none] ∧
    tree_wf [Task.mk "x" (some false) none] = false :=
  ⟨rfl, rfl⟩

/-! Round-trip between the rendering traversal and path resolution. -/

theorem display_children_mem {s : List Task} :
    ∀ (k : Nat) (p0 : List Int) (d0 : Nat) (p : List Int) (d : Nat) (u : Task),
      (p, d, u) ∈ display_children s p0 d0 k →
      ∃ (j : Nat) (tj : Task), s.get? j = some tj ∧
        (p, d, u) ∈ display_task_recursive tj (p0 ++ [((k + j : Nat) : Int)]) (d0 + 1) := by
  induction s with
  | nil =>
    intro k p0 d0 p d u h
    simp [display_children] at h
  | cons t ts ih =>
    intro k p0 d0 p d u h
    simp only [display_children, List.mem_append] at h
    rcases h with h | h
    · exact ⟨0, t, rfl, by simpa using h⟩
    · rcases ih (k + 1) p0 d0 p d u h with ⟨j, tj, hj, hm⟩
      refine ⟨j + 1, tj, by simpa using hj, ?_⟩
      have he : k + 1 + j = k + (j + 1) := by omega
      rwa [he] at hm

theorem resolve_of_children (s : List Task) (H : ∀ t ∈ s, ResolvesBelow t)
    (p0 : List Int) (d0 : Nat) (p : List Int) (d : Nat) (u : Task)
    (h : (p, d, u) ∈ display_children s p0 d0 0) :
    ∃ rest, rest ≠ [] ∧ p = p0 ++ rest ∧ get_task_from_path s rest = some u := by
  rcases display_children_mem 0 p0 d0 p d u h with ⟨j, tj, hj, hm⟩
  simp only [Nat.zero_add] at hm
  have Hj : ResolvesBelow tj := H tj (List.get?_mem hj)
  rcases Hj (p0 ++ [(j : Int)]) (d0 + 1) p d u hm with ⟨hp, hu⟩ | ⟨rest, hne, hp, hres⟩
  · refine ⟨[(j : Int)], by simp, hp, ?_⟩
    simp only [get_task_from_path, pyGet_natCast, hj, hu]
  · refine ⟨(j : Int) :: rest, by simp, by rw [hp, List.append_assoc]; rfl, ?_⟩
    rw [get_task_from_path_cons _ _ _ hne, pyGet_natCast, hj]
    exact hres

theorem resolvesBelow_of_size : ∀ (n : Nat) (t : Task), sizeOf t ≤ n → ResolvesBelow t := by
  intro n
  induction n with
  | zero =>
    intro t ht
    cases t with
    | mk tx dn st =>
      rw [Task.mk.sizeOf_spec] at ht
      omega
  | succ n ih =>
    intro t ht p0 d0 p d u h
    cases t with
    | mk tx dn st =>
      cases st with
      | none =>
        have h3 : (p, d, u) ∈ [(p0, d0, Task.mk tx dn none)] := h
        rcases List.mem_cons.mp h3 with he | h2
        · left
          have he2 : p = p0 ∧ d = d0 ∧ u = Task.mk tx dn none := by
            simpa [Prod.ext_iff] using he
          exact ⟨he2.1, he2.2.2⟩
        · simp at h2
      | some s =>
        have h3 : (p, d, u) ∈
            ((p0, d0, Task.mk tx dn (some s)) ::
              (if s.isEmpty then [] else display_children s p0 d0 0)) := h
        rcases List.mem_cons.mp h3 with he | h2
        · left
          have he2 : p = p0 ∧ d = d0 ∧ u = Task.mk tx dn (some s) := by
            simpa [Prod.ext_iff] using he
          exact ⟨he2.1, he2.2.2⟩
        · right
          by_cases hse : s.isEmpty
          · rw [if_pos hse] at h2
            simp at h2
          · rw [if_neg hse] at h2
            have H : ∀ t2 ∈ s, ResolvesBelow t2 := by
              intro t2 ht2
              have hlt : sizeOf t2 < sizeOf s := List.sizeOf_lt_of_mem ht2
              have hspec : sizeOf (Task.mk tx dn (some s)) =
                  1 + sizeOf tx + sizeOf dn + sizeOf (some s) := Task.mk.sizeOf_spec ..
              have hopt : sizeOf (some s) = 1 + sizeOf s := by simp
              exact ih t2 (by omega)
            rcases resolve_of_children s H p0 d0 p d u h2 with ⟨rest, hne, hp, hres⟩
            exact ⟨rest, hne, hp, by simpa [Task.subtasks] using hres⟩

theorem refresh_entries_mem :
    ∀ (tree : List Task) (k : Nat) (p : List Int) (d : Nat) (u : Task),
      (p, d, u) ∈ refresh_display_entries tree k →
      ∃ (j : Nat) (tj : Task), tree.get? j = some tj ∧
        (p, d, u) ∈ display_task_recursive tj [((k + j : Nat) : Int)] 0 := by
  intro tree
  induction tree with
  | nil =>
    intro k p d u h
    simp [refresh_display_entries] at h
  | cons t ts ih =>
    intro k p d u h
    simp only [refresh_display_entries, List.mem_append] at h
    rcases h with h | h
    · exact ⟨0, t, rfl, by simpa using h⟩
    · rcases ih (k + 1) p d u h with ⟨j, tj, hj, hm⟩
      refine ⟨j + 1, tj, by simpa using hj, ?_⟩
      have he : k + 1 + j = k + (j + 1) := by omega
      rwa [he] at hm

/-- Claim C2: every `(path, depth, task)` entry that the pre-order rendering
traversal emits is such that `get_task_from_path` at that path returns
exactly that task. -/
theorem c2_render_resolve (tree : List Task) (p : List Int) (d : Nat) (u : Task)
    (h : (p, d, u) ∈ render tree) :
    get_task_from_path tree p = some u := by
  rcases refresh_entries_mem tree 0 p d u h with ⟨j, tj, hj, hm⟩
  simp only [Nat.zero_add] at hm
  have Hj : ResolvesBelow tj := resolvesBelow_of_size (sizeOf tj) tj le_rfl
  rcases Hj [(j : Int)] 0 p d u hm with ⟨hp, hu⟩ | ⟨rest, hne, hp, hres⟩
  · rw [hp, hu]
    simp only [get_task_from_path, pyGet_natCast, hj]
  · have hp2 : p = (j : Int) :: rest := by rw [hp]; rfl
    rw [hp2, get_task_from_path_cons _ _ _ hne, pyGet_natCast, hj]
    exact hres

/-- Witness for C2: the deepest entry emitted for a concrete two-level tree
resolves to its task. -/
theorem c2_render_resolve_witness :
    get_task_from_path
        [Task.mk "a" (some false) (some [Task.mk "b" (some true) (some [])])] [0, 0] =
      some (Task.mk "b" (some true) (some [])) :=
  c2_render_resolve [Task.mk "a" (some false) (some [Task.mk "b" (some true) (some [])])]
    [0, 0] 1 (Task.mk "b" (some true) (some []))
    (List.mem_cons_of_mem _ (List.mem_cons_self _ _))

/-! Frame condition of deletion.  The spec's Paths (section 3) are sequences
of non-negative integers, written here as `List Nat` and mapped into the
`List Int` the operations take. -/

theorem pyReplace_natCast {α : Type} (l : List α) (n : Nat) (a : α) :
    pyReplace l (n : Int) a = l.set n a := by
  unfold pyReplace pyNorm
  have h : ¬ ((n : Int) < 0) := by omega
  simp [h]

theorem get_parent_list_concat (tree : List Task) (q : List Int) (x : Int) :
    get_parent_list_from_path tree (q ++ [x]) = strict_nav tree q := by
  cases q with
  | nil => rfl
  | cons a q2 =>
    cases q2 with
    | nil => rfl
    | cons b q3 =>
      have he : get_parent_list_from_path tree (a :: b :: (q3 ++ [x])) =
          strict_nav tree ((a :: b :: (q3 ++ [x])).dropLast) := rfl
      rw [show (a :: b :: q3) ++ [x] = a :: b :: (q3 ++ [x]) from rfl, he]
      congr 1
      rw [show a :: b :: (q3 ++ [x]) = (a :: b :: q3) ++ [x] from rfl, List.dropLast_concat]

theorem update_parent_list_concat (g : List Task → List Task) (tree : List Task)
    (q : List Int) (x : Int) :
    update_parent_list g tree (q ++ [x]) = strict_set g tree q := by
  cases q with
  | nil => rfl
  | cons a q2 =>
    cases q2 with
    | nil => rfl
    | cons b q3 =>
      have he : update_parent_list g tree (a :: b :: (q3 ++ [x])) =
          strict_set g tree ((a :: b :: (q3 ++ [x])).dropLast) := rfl
      rw [show (a :: b :: q3) ++ [x] = a :: b :: (q3 ++ [x]) from rfl, he]
      congr 1
      rw [show a :: b :: (q3 ++ [x]) = (a :: b :: q3) ++ [x] from rfl, List.dropLast_concat]

/-- On a non-negative path, mutating through `strict_set` is exactly a
`set_siblings` replacement of the navigated list by its `g`-image. -/
theorem strict_set_eq_set_siblings (g : List Task → List Task) :
    ∀ (pp : List Nat) (cur pl : List Task),
      strict_nav cur (natPath pp) = some pl →
      strict_set g cur (natPath pp) = set_siblings cur pp (g pl) := by
  intro pp
  induction pp with
  | nil =>
    intro cur pl h
    simp only [List.map_nil, strict_nav, Option.some.injEq] at h
    subst h
    rfl
  | cons j rest ih =>
    intro cur pl h
    simp only [List.map_cons, strict_nav] at h
    simp only [List.map_cons, strict_set, set_siblings]
    cases hg : pyGet cur (j : Int) with
    | none => rw [hg] at h; simp at h
    | some t =>
      rw [hg] at h
      simp only at h
      have hget : cur.get? j = some t := by rw [← pyGet_natCast]; exact hg
      rw [hget]
      cases hs : t.subtasks with
      | none => rw [hs] at h; simp at h
      | some s =>
        rw [hs] at h
        simp only at h
        simp only [hg, hs]
        rw [pyReplace_natCast, ih s pl h]

/-- A successful strict parent navigation makes the whole path resolve: the
node at index `i` of the navigated sibling list is what
`get_task_from_path` returns for the path extended by `i`. -/
theorem get_task_of_strict_nav :
    ∀ (q : List Int) (tree pl : List Task) (i : Nat) (u : Task),
      strict_nav tree q = some pl → pl.get? i = some u →
      get_task_from_path tree (q ++ [(i : Int)]) = some u := by
  intro q
  induction q with
  | nil =>
    intro tree pl i u h hu
    simp only [strict_nav, Option.some.injEq] at h
    subst h
    simp only [List.nil_append, get_task_from_path, pyGet_natCast]
    exact hu
  | cons a q2 ih =>
    intro tree pl i u h hu
    simp only [strict_nav] at h
    cases hg : pyGet tree a with
    | none => rw [hg] at h; simp at h
    | some t =>
      rw [hg] at h
      simp only at h
      cases hs : t.subtasks with
      | none => rw [hs] at h; simp at h
      | some s =>
        rw [hs] at h
        simp only at h
        rw [List.cons_append, get_task_from_path_cons _ _ _ (by simp), hg]
        simp only [hs, Option.getD_some]
        exact ih s pl i u h hu

/-- Re-reading the replaced sibling list: after `set_siblings tree pp newl`,
strict navigation along `pp` finds exactly `newl`. -/
theorem strict_nav_set_siblings :
    ∀ (pp : List Nat) (tree pl newl : List Task),
      strict_nav tree (natPath pp) = some pl →
      strict_nav (set_siblings tree pp newl) (natPath pp) = some newl := by
  intro pp
  induction pp with
  | nil =>
    intro tree pl newl _
    rfl
  | cons j rest ih =>
    intro tree pl newl h
    simp only [List.map_cons, strict_nav] at h ⊢
    cases hg : pyGet tree (j : Int) with
    | none => rw [hg] at h; simp at h
    | some t =>
      rw [hg] at h
      simp only at h
      cases hs : t.subtasks with
      | none => rw [hs] at h; simp at h
      | some s =>
        rw [hs] at h
        simp only at h
        have hget : tree.get? j = some t := by rw [← pyGet_natCast]; exact hg
        simp only [set_siblings, hget, hs]
        have hrepl : tree.set j
            (Task.mk t.text t.done (some (set_siblings s rest newl))) =
            pyReplace tree (j : Int)
              (Task.mk t.text t.done (some (set_siblings s rest newl))) :=
          (pyReplace_natCast ..).symm
        rw [hrepl, pyGet_pyReplace_same hg _]
        simp only [Task.subtasks]
        exact ih s pl newl h

/-- Claim C5: for a spec Path (non-negative indices) whose parent sibling
list resolves to `pl` and whose final index `i` is in range, the path
resolves to `pl`'s `i`-th node, and confirmed deletion replaces exactly that
sibling list by `pl` with index `i` erased — everything outside the list is
untouched (`set_siblings` rebuilds only the spine down to it), the sibling
count drops by exactly one, and re-navigating in the result finds the erased
list. -/
theorem c5_delete_frame (tree pl : List Task) (pp : List Nat) (i : Nat)
    (hpl : get_parent_list_from_path tree
      (natPath pp ++ [(i : Int)]) = some pl)
    (hi : i < pl.length) :
    get_task_from_path tree (natPath pp ++ [(i : Int)]) =
      some (pl.get ⟨i, hi⟩) ∧
    delete_task tree (natPath pp ++ [(i : Int)]) true =
      set_siblings tree pp (pl.eraseIdx i) ∧
    get_parent_list_from_path
        (delete_task tree (natPath pp ++ [(i : Int)]) true)
        (natPath pp ++ [(i : Int)]) = some (pl.eraseIdx i) ∧
    (pl.eraseIdx i).length + 1 = pl.length := by
  rw [get_parent_list_concat] at hpl
  have hu : pl.get? i = some (pl.get ⟨i, hi⟩) := List.get?_eq_get hi
  have hres : get_task_from_path tree (natPath pp ++ [(i : Int)]) =
      some (pl.get ⟨i, hi⟩) :=
    get_task_of_strict_nav _ tree pl i _ hpl hu
  have hguard : (0 : Int) ≤ (i : Int) ∧ (i : Int) < (pl.length : Int) :=
    ⟨by omega, by omega⟩
  have hdel : delete_task tree (natPath pp ++ [(i : Int)]) true =
      set_siblings tree pp (pl.eraseIdx i) := by
    simp only [delete_task, hres, if_true, get_parent_list_concat, hpl,
      List.getLast?_concat]
    rw [if_pos hguard, update_parent_list_concat,
      strict_set_eq_set_siblings _ pp tree pl hpl]
    simp
  refine ⟨hres, hdel, ?_, ?_⟩
  · rw [hdel, get_parent_list_concat, strict_nav_set_siblings pp tree pl _ hpl]
  · rw [List.length_eraseIdx, if_pos hi]
    omega

/-- Witness for C5: deleting the first of two subtasks of a concrete root. -/
theorem c5_delete_frame_witness :
    get_task_from_path
        [Task.mk "a" (some false)
          (some [Task.mk "b" (some true) (some []), Task.mk "c" (some false) (some [])])]
        (natPath [0] ++ [((0 : Nat) : Int)]) =
      some ([Task.mk "b" (some true) (some []),
        Task.mk "c" (some false) (some [])].get ⟨0, by decide⟩) ∧
    delete_task
        [Task.mk "a" (some false)
          (some [Task.mk "b" (some true) (some []), Task.mk "c" (some false) (some [])])]
        (natPath [0] ++ [((0 : Nat) : Int)]) true =
      set_siblings
        [Task.mk "a" (some false)
          (some [Task.mk "b" (some true) (some []), Task.mk "c" (some false) (some [])])]
        [0]
        ([Task.mk "b" (some true) (some []), Task.mk "c" (some false) (some [])].eraseIdx 0) ∧
    get_parent_list_from_path
        (delete_task
          [Task.mk "a" (some false)
            (some [Task.mk "b" (some true) (some []), Task.mk "c" (some false) (some [])])]
          (natPath [0] ++ [((0 : Nat) : Int)]) true)
        (natPath [0] ++ [((0 : Nat) : Int)]) =
      some ([Task.mk "b" (some true) (some []),
        Task.mk "c" (some false) (some [])].eraseIdx 0) ∧
    (([Task.mk "b" (some true) (some []),
        Task.mk "c" (some false) (some [])].eraseIdx 0).length + 1 =
      [Task.mk "b" (some true) (some []), Task.mk "c" (some false) (some [])].length) :=
  c5_delete_frame
    [Task.mk "a" (some false)
      (some [Task.mk "b" (some true) (some []), Task.mk "c" (some false) (some [])])]
    [Task.mk "b" (some true) (some []), Task.mk "c" (some false) (some [])]
    [0] 0 rfl (by decide)

end NotesApp
